import Mathlib

namespace RenkoSpec

/-- Direction of a Renko brick, the string field "direction" taking the
values "up" and "down". -/
inductive Direction where
  | up
  | down
deriving DecidableEq, Repr

/-- A Renko brick: the dict with keys "open", "close" and "direction" built by
`RenkoCalculator`. The field `opn` is the "open" price. -/
structure Brick where
  opn : ℚ
  close : ℚ
  dir : Direction
deriving DecidableEq, Repr

/-- Python built-in `round` on a rational: round half to even, as used in
`round(current_price / brick_size)`. -/
def pyRound (q : ℚ) : ℤ :=
  if q - ⌊q⌋ < 1 / 2 then ⌊q⌋
  else if 1 / 2 < q - ⌊q⌋ then ⌊q⌋ + 1
  else if Even ⌊q⌋ then ⌊q⌋ else ⌊q⌋ + 1

/-- The Python expression
`1 + int(remaining_diff // brick_size) if remaining_diff >= 0 else 1`
computing `count_additional_bricks`; Python float floor-division is `⌊·/·⌋`. -/
def brickCount (b remaining : ℚ) : ℤ :=
  if 0 ≤ remaining then 1 + ⌊remaining / b⌋ else 1

/-- The close of the next brick:
`brick_open + size` for an up brick, `brick_open - size` for a down brick. -/
def stepClose (dir : Direction) (anchor size : ℚ) : ℚ :=
  match dir with
  | .up => anchor + size
  | .down => anchor - size

/-- The brick-emission `for` loop of `set_renko_list_into_symbol_data_list`
(renko_calculator.py lines 163-180): emit `n` bricks in direction `dir`
starting from `anchor`, the first of height `firstSize`, every later one of
height `b`; returns the emitted bricks and the final `last_renko_close`. -/
def emitBricks (b : ℚ) (dir : Direction) : ℚ → ℚ → Nat → List Brick × ℚ
  | anchor, _, 0 => ([], anchor)
  | anchor, firstSize, n + 1 =>
    let cl : ℚ := stepClose dir anchor firstSize
    let rest := emitBricks b dir cl b n
    (⟨anchor, cl, dir⟩ :: rest.1, rest.2)

/-- The brick-emission `for` loop of `handle_new_ticker_data`
(renko_calculator.py lines 267-300), which additionally evaluates the trade
signal: each emitted brick is paired with the boolean
`last_brick_direction and direction != last_brick_direction` holding at the
moment the brick is appended; `last_brick_direction` is updated to `dir`
after every brick. -/
def emitBricksLive (b : ℚ) (dir : Direction) :
    Option Direction → ℚ → ℚ → Nat → List (Brick × Bool) × ℚ
  | _, anchor, _, 0 => ([], anchor)
  | lastDir, anchor, firstSize, n + 1 =>
    let cl : ℚ := stepClose dir anchor firstSize
    let signal : Bool := match lastDir with
      | some d => decide (dir ≠ d)
      | none => false
    let rest := emitBricksLive b dir (some dir) cl b n
    ((⟨anchor, cl, dir⟩, signal) :: rest.1, rest.2)

/-- The eviction `renko_bricks[-200:]` applied when more than 200 bricks are
stored. -/
def truncate200 (l : List Brick) : List Brick :=
  if 200 < l.length then l.drop (l.length - 200) else l

/-- Running state of the historical rebuild loop in
`set_renko_list_into_symbol_data_list`: the accumulated `renko_bricks` and
the running `last_renko_close` local (none before the first bar). -/
structure BatchState where
  bricks : List Brick
  lastClose : Option ℚ
deriving DecidableEq, Repr

/-- One iteration of the per-bar loop of `set_renko_list_into_symbol_data_list`
(lines 125-180) on the close price of one OHLCV row. -/
def batchStep (b : ℚ) (st : BatchState) (price : ℚ) : BatchState :=
  match st.lastClose with
  | none => { st with lastClose := some ((pyRound (price / b) : ℚ) * b) }
  | some anchor =>
    let diff := price - anchor
    if diff = 0 then st
    else
      let dir : Direction := if 0 < diff then .up else .down
      let lastDir : Direction := match st.bricks.getLast? with
        | some br => br.dir
        | none => dir
      let threshold := if lastDir = dir then b else 2 * b
      if (dir = .up ∧ threshold ≤ diff) ∨ (dir = .down ∧ diff ≤ -threshold) then
        let remaining := |diff| - threshold
        let res := emitBricks b dir anchor threshold (brickCount b remaining).toNat
        { bricks := st.bricks ++ res.1, lastClose := some res.2 }
      else st

/-- The historical rebuild `set_renko_list_into_symbol_data_list` for one
symbol, on the close prices of its `ohlcv_list`, given brick size `b`; the
guard `not ohlcv_list or not renko_brick_size` (a falsy, i.e. zero or
missing, brick size or an empty bar list) stores an empty `renko_list`. -/
def setRenkoList (b : ℚ) (closes : List ℚ) : List Brick :=
  if closes = [] ∨ b = 0 then []
  else truncate200 (closes.foldl (batchStep b) ⟨[], none⟩).bricks

/-- Per-symbol live state read and written by `handle_new_ticker_data`: the
stored `renko_list` and the stored `last_renko_close` key of `symbol_data`. -/
structure LiveState where
  renkoList : List Brick
  lastRenkoClose : Option ℚ
deriving DecidableEq, Repr

/-- The effective anchor the live handler uses (lines 232-236): the close of
the last stored brick when one exists, else the stored `last_renko_close`. -/
def LiveState.anchor (st : LiveState) : Option ℚ :=
  match st.renkoList.getLast? with
  | some br => some br.close
  | none => st.lastRenkoClose

/-- The `last_brick_direction` the live handler reads (lines 237-239): the
direction of the last stored brick, or none when no brick is stored. -/
def LiveState.lastDir (st : LiveState) : Option Direction :=
  (st.renkoList.getLast?).map Brick.dir

/-- Processing of one ticker price for one symbol by `handle_new_ticker_data`
(lines 227-305), assuming the symbol is tracked and its `renko_brick_size`
is present with value `b`. Returns the updated state and the list of
emitted bricks, each paired with its trade-signal boolean. -/
def liveStep (b : ℚ) (st : LiveState) (price : ℚ) : LiveState × List (Brick × Bool) :=
  match st.anchor with
  | none => ({ st with lastRenkoClose := some ((pyRound (price / b) : ℚ) * b) }, [])
  | some anchor =>
    let diff := price - anchor
    if diff = 0 then (st, [])
    else
      let dir : Direction := if 0 < diff then .up else .down
      let lastDir := st.lastDir
      let threshold := if lastDir = some dir ∨ lastDir = none then b else 2 * b
      if (dir = .up ∧ threshold ≤ diff) ∨ (dir = .down ∧ diff ≤ -threshold) then
        let remaining := |diff| - threshold
        let res := emitBricksLive b dir lastDir anchor threshold (brickCount b remaining).toNat
        ({ renkoList := truncate200 (st.renkoList ++ res.1.map Prod.fst),
           lastRenkoClose := some res.2 }, res.1)
      else
        ({ renkoList := truncate200 st.renkoList, lastRenkoClose := st.lastRenkoClose }, [])

/-- Feeding prices one at a time through `handle_new_ticker_data` (one
single-symbol ticker per call), accumulating the state. -/
def liveRun (b : ℚ) (st : LiveState) : List ℚ → LiveState
  | [] => st
  | p :: ps => liveRun b (liveStep b st p).1 ps

/-- One parsed OHLCV row, the list `[o, h, l, c, v, t]` built by
`set_ohlcv_list_into_symbol_data_list` from a `FuturesCandlestick`. -/
structure Ohlcv where
  o : ℚ
  h : ℚ
  l : ℚ
  c : ℚ
  v : ℚ
  t : ℤ
deriving DecidableEq, Repr

/-- True range of a bar against the previous close:
`max(high - low, |high - prev_close|, |low - prev_close|)`, the quantity
talib.ATR derives from consecutive bars. -/
def trueRange (hi lo prevClose : ℚ) : ℚ :=
  max (hi - lo) (max |hi - prevClose| |lo - prevClose|)

/-- The true ranges of a bar list: one value per bar from the second bar on,
each taken against the close of the bar before it. -/
def trList : List Ohlcv → List ℚ
  | [] => []
  | [_] => []
  | x :: y :: rest => trueRange y.h y.l x.c :: trList (y :: rest)

/-- Wilder smoothing used by `talib.ATR`: starting from `init`, fold each
further true range `tr` as `atr := (atr * (period - 1) + tr) / period`. -/
def wilderSmooth (p : ℕ) (init : ℚ) (trs : List ℚ) : ℚ :=
  trs.foldl (fun acc tr => (acc * ((p : ℚ) - 1) + tr) / (p : ℚ)) init

/-- The last element of `talib.ATR(high, low, close, timeperiod=p)` on a bar
list with at least `p + 1` bars: the simple average of the first `p` true
ranges, Wilder-smoothed over the remaining ones. -/
def atrLast (p : ℕ) (bars : List Ohlcv) : ℚ :=
  wilderSmooth p (((trList bars).take p).sum / (p : ℚ)) ((trList bars).drop p)

/-- The per-symbol body of `set_brick_size_into_symbol_data_list`
(renko_calculator.py lines 74-106): `renko_brick_size` is `None` when fewer
than `atr_period + 1` bars exist (talib would also yield NaN there), and the
last ATR value otherwise. -/
def setBrickSizeForSymbol (p : ℕ) (bars : List Ohlcv) : Option ℚ :=
  if bars.length < p + 1 then none else some (atrLast p bars)

/-- A 15-bar window in which every bar is identical and flat. -/
def flatBars : List Ohlcv :=
  List.replicate 15 ⟨100, 100, 100, 100, 0, 0⟩

/-- Order side, the string "buy" or "sell". -/
inductive Side where
  | buy
  | sell
deriving DecidableEq, Repr

/-- An order intent submitted to the exchange (or to the simulated fill logic):
either the reduce-only close order of `place_market_close_order` or the
market open order of size `±order_size_in_quantity`. -/
inductive OrderEvent where
  | closeOrder
  | openOrder (side : Side)
deriving DecidableEq, Repr

/-- One entry of `symbol_position_list` in the order handlers. The fields
`side`, `sizeQty`, `sizeUsdt` and `pnl` model the keys
`current_position_side`, `current_position_size_in_quantity`,
`current_position_size_in_usdt` and `unrealised_pnl`; absent dict keys are
the defaults none and 0 used by `.get`. -/
structure SymbolPosition where
  symbol : String
  lastPrice : ℚ
  minQty : ℚ
  minUsdt : ℚ
  orderQty : ℤ
  orderUsdt : ℚ
  side : Option Side
  sizeQty : ℤ
  sizeUsdt : ℚ
  pnl : ℚ
deriving DecidableEq, Repr

/-- The effect of `dict.update(symbol_data)` in
`set_symbol_data_to_position_list`: the market-data keys are overwritten
from the fresh contract info, the position keys of the existing entry are
kept. -/
def updateMarketData (old fresh : SymbolPosition) : SymbolPosition :=
  { fresh with side := old.side, sizeQty := old.sizeQty,
               sizeUsdt := old.sizeUsdt, pnl := old.pnl }

/-- The update-or-append step of `set_symbol_data_to_position_list`: the first
entry with the same symbol is updated in place, otherwise the fresh entry is
appended. -/
def upsertSymbolData : List SymbolPosition → SymbolPosition → List SymbolPosition
  | [], fresh => [fresh]
  | item :: rest, fresh =>
    if item.symbol = fresh.symbol then updateMarketData item fresh :: rest
    else item :: upsertSymbolData rest fresh

/-- Taker fee rate 0.0005 of the simulated exchange. -/
def takerFeeRate : ℚ := 5 / 10000

/-- State of `SimulatedOrderHandler` restricted to one tracked symbol: its
`symbol_position_list` entry and `account_total_balance`. -/
structure SimState where
  pos : SymbolPosition
  balance : ℚ
deriving DecidableEq, Repr

/-- The simulated `place_market_close_order`
(simulated_order_handler.py lines 113-133): a no-op when no position is held,
otherwise realise the pnl minus the taker fee and flatten the record. -/
def simPlaceMarketCloseOrder (st : SimState) : SimState × List OrderEvent :=
  if st.pos.sizeQty = 0 then (st, [])
  else
    ({ pos := { st.pos with side := none, sizeQty := 0, sizeUsdt := 0, pnl := 0 },
       balance := st.balance + st.pos.pnl - |st.pos.sizeUsdt| * takerFeeRate },
      [.closeOrder])

/-- The simulated `place_market_open_order_after_close`
(simulated_order_handler.py lines 83-111): return unchanged when the held
side already equals the requested side; close first when a nonzero position
is held; then open a position of the configured order size on the requested
side. -/
def simPlaceMarketOpenOrderAfterClose (st : SimState) (side : Side) :
    SimState × List OrderEvent :=
  if st.pos.side = some side then (st, [])
  else
    let closed := if st.pos.sizeQty ≠ 0 then simPlaceMarketCloseOrder st else (st, [])
    let st1 := closed.1
    let q : ℤ := match side with
      | .sell => -|st1.pos.orderQty|
      | .buy => |st1.pos.orderQty|
    let u : ℚ := match side with
      | .sell => -|st1.pos.orderUsdt|
      | .buy => |st1.pos.orderUsdt|
    ({ pos := { st1.pos with side := some side, sizeQty := q, sizeUsdt := u, pnl := 0 },
       balance := st1.balance - |u| * takerFeeRate },
      closed.2 ++ [.openOrder side])

/-- The live `place_market_close_order` (order_handler.py lines 189-220) seen
from the per-symbol position record: the close order is submitted; on
success the record is refreshed from the exchange (flat after the close), on
failure nothing is written and the exception is re-raised (the surfaced
error is the third component). -/
def placeMarketCloseOrderLive (p : SymbolPosition) (closeRes : Except String Unit) :
    SymbolPosition × List OrderEvent × Option String :=
  match closeRes with
  | .ok _ => ({ p with side := none, sizeQty := 0, sizeUsdt := 0, pnl := 0 },
      [.closeOrder], none)
  | .error e => (p, [.closeOrder], some e)

/-- The live `place_market_open_order_after_close`
(order_handler.py lines 142-187): `p` is the freshly refreshed position
record; `closeRes` and `openRes` are the exchange outcomes of the close and
open orders. Returns the record, the submitted orders in submission order,
and the surfaced exception if any; an exception from the close order
propagates before the open order is ever built. -/
def placeMarketOpenOrderAfterCloseLive (p : SymbolPosition) (side : Side)
    (closeRes openRes : Except String Unit) :
    SymbolPosition × List OrderEvent × Option String :=
  if p.side = some side then (p, [], none)
  else if p.sizeQty ≠ 0 then
    match placeMarketCloseOrderLive p closeRes with
    | (p1, ev1, some e) => (p1, ev1, some e)
    | (p1, ev1, none) =>
      match openRes with
      | .ok _ => (p1, ev1 ++ [.openOrder side], none)
      | .error e => (p1, ev1 ++ [.openOrder side], some e)
  else
    match openRes with
    | .ok _ => (p, [.openOrder side], none)
    | .error e => (p, [.openOrder side], some e)

/-- A raw `FuturesCandlestick` as consumed by
`set_ohlcv_list_into_symbol_data_list`; its fields parse to exact rationals
and an integer timestamp. -/
structure Candlestick where
  o : ℚ
  h : ℚ
  l : ℚ
  c : ℚ
  v : ℚ
  t : ℤ
deriving DecidableEq, Repr

/-- The row parsing `[float(o), float(h), float(l), float(c), float(v), int(t)]`. -/
def parseCandlestick (cs : Candlestick) : Ohlcv :=
  ⟨cs.o, cs.h, cs.l, cs.c, cs.v, cs.t⟩

/-- One entry of `RenkoCalculator.symbol_data_list` right after
`set_ohlcv_list_into_symbol_data_list`. -/
structure SymbolData where
  symbol : String
  ohlcvList : List Ohlcv
deriving DecidableEq, Repr

/-- The message of the `ValueError` raised on an empty or missing input list. -/
def emptyOhlcvMsg : String := "[Renko] ohlcv_list must be a non-empty list."

/-- The method `set_ohlcv_list_into_symbol_data_list`
(renko_calculator.py lines 38-67): raise `ValueError` when
`candlestick_list` is missing or empty (before any mutation), otherwise
append exactly one new entry for the symbol, unconditionally. -/
def setOhlcvListIntoSymbolDataList (symbol : String)
    (candlestickList : Option (List Candlestick)) (symbolDataList : List SymbolData) :
    Except String (List SymbolData) :=
  match candlestickList with
  | none => .error emptyOhlcvMsg
  | some [] => .error emptyOhlcvMsg
  | some cl => .ok (symbolDataList ++ [⟨symbol, cl.map parseCandlestick⟩])



/-- Synchronization between the state of the historical rebuild loop and the
live per-tick state started from scratch. -/
def SyncInv (B : BatchState) (L : LiveState) : Prop :=
  L.renkoList = truncate200 B.bricks ∧
  L.lastRenkoClose = B.lastClose ∧
  (∀ br, B.bricks.getLast? = some br → B.lastClose = some br.close)

/-- The trade-signal discipline along a batch of emitted bricks: given the
direction of the brick immediately preceding the batch (none when there is
none), a signalled brick must differ in direction from its immediate
predecessor. -/
def signalsOnlyOnChange : Option Direction → List (Brick × Bool) → Prop
  | _, [] => True
  | ld, (br, s) :: rest =>
    (s = true → ∃ d, ld = some d ∧ br.dir ≠ d) ∧ signalsOnlyOnChange (some br.dir) rest

theorem truncate200_eq_drop (l : List Brick) : truncate200 l = l.drop (l.length - 200) := by
  unfold truncate200
  split
  · rfl
  · rw [Nat.sub_eq_zero_of_le (by omega), List.drop_zero]

theorem getLast?_drop_of_lt {α : Type} :
    ∀ (l : List α) (k : ℕ), k < l.length → (l.drop k).getLast? = l.getLast?
  | _, 0, _ => rfl
  | [], k + 1, h => absurd h (by simp)
  | x :: xs, k + 1, h => by
    have hxs : xs ≠ [] := by
      intro he
      subst he
      simp at h
    obtain ⟨y, ys, rfl⟩ := List.exists_cons_of_ne_nil hxs
    simpa [List.getLast?_cons_cons] using
      getLast?_drop_of_lt (y :: ys) k (by simpa using h)

theorem truncate200_getLast? (l : List Brick) : (truncate200 l).getLast? = l.getLast? := by
  rw [truncate200_eq_drop]
  cases l with
  | nil => rfl
  | cons x xs => exact getLast?_drop_of_lt _ _ (by simp only [List.length_cons]; omega)

theorem truncate200_eq_nil_iff (l : List Brick) : truncate200 l = [] ↔ l = [] := by
  constructor
  · intro h
    have h2 := truncate200_getLast? l
    rw [h] at h2
    exact List.getLast?_eq_none_iff.mp h2.symm
  · intro h
    subst h
    simp [truncate200]

theorem truncate200_append (xs ys : List Brick) :
    truncate200 (truncate200 xs ++ ys) = truncate200 (xs ++ ys) := by
  rw [truncate200_eq_drop, truncate200_eq_drop, truncate200_eq_drop]
  rw [List.drop_append_eq_append_drop, List.drop_append_eq_append_drop, List.drop_drop]
  rw [List.length_append, List.length_append, List.length_drop]
  have h1 : xs.length - 200 + ((xs.length - (xs.length - 200) + ys.length) - 200)
      = xs.length + ys.length - 200 := by omega
  have h2 : (xs.length - (xs.length - 200) + ys.length) - 200 - (xs.length - (xs.length - 200))
      = xs.length + ys.length - 200 - xs.length := by omega
  rw [h1, h2]

theorem truncate200_idem (l : List Brick) : truncate200 (truncate200 l) = truncate200 l := by
  have h := truncate200_append l []
  simpa using h

theorem emitBricksLive_fst_map (b : ℚ) (dir : Direction) :
    ∀ (n : ℕ) (ld : Option Direction) (anchor fs : ℚ),
      ((emitBricksLive b dir ld anchor fs n).1).map Prod.fst = (emitBricks b dir anchor fs n).1
  | 0, _, _, _ => rfl
  | n + 1, ld, anchor, fs => by
    simp only [emitBricksLive, emitBricks, List.map_cons]
    exact congrArg _ (emitBricksLive_fst_map b dir n (some dir) _ b)

theorem emitBricksLive_snd (b : ℚ) (dir : Direction) :
    ∀ (n : ℕ) (ld : Option Direction) (anchor fs : ℚ),
      (emitBricksLive b dir ld anchor fs n).2 = (emitBricks b dir anchor fs n).2
  | 0, _, _, _ => rfl
  | n + 1, ld, anchor, fs => by
    simp only [emitBricksLive, emitBricks]
    exact emitBricksLive_snd b dir n (some dir) _ b

theorem emitBricks_length (b : ℚ) (dir : Direction) :
    ∀ (n : ℕ) (anchor fs : ℚ), (emitBricks b dir anchor fs n).1.length = n
  | 0, _, _ => rfl
  | n + 1, anchor, fs => by
    simp only [emitBricks, List.length_cons]
    exact congrArg Nat.succ (emitBricks_length b dir n _ b)

theorem emitBricks_getLast (b : ℚ) (dir : Direction) :
    ∀ (n : ℕ) (anchor fs : ℚ), n ≠ 0 →
      ∃ br : Brick, (emitBricks b dir anchor fs n).1.getLast? = some br ∧
        br.close = (emitBricks b dir anchor fs n).2 ∧ br.dir = dir
  | 0, _, _, h => absurd rfl h
  | 1, anchor, fs, _ => by
    simp only [emitBricks]
    exact ⟨_, rfl, rfl, rfl⟩
  | n + 2, anchor, fs, _ => by
    obtain ⟨br, h1, h2, h3⟩ :=
      emitBricks_getLast b dir (n + 1) (stepClose dir anchor fs) b (by omega)
    refine ⟨br, ?_, ?_, h3⟩
    · simp only [emitBricks] at h1 ⊢
      rw [List.getLast?_cons_cons]
      exact h1
    · simp only [emitBricks] at h2 ⊢
      exact h2



theorem brickCount_toNat_ne_zero (b remaining : ℚ) (hb : 0 < b) (hr : 0 ≤ remaining) :
    (brickCount b remaining).toNat ≠ 0 := by
  unfold brickCount
  rw [if_pos hr]
  have hf : (0 : ℤ) ≤ ⌊remaining / b⌋ := Int.floor_nonneg.mpr (div_nonneg hr hb.le)
  omega


theorem SyncInv.getLast_eq {B : BatchState} {L : LiveState} (h : SyncInv B L) :
    L.renkoList.getLast? = B.bricks.getLast? := by
  rw [h.1, truncate200_getLast?]

theorem SyncInv.anchor_eq {B : BatchState} {L : LiveState} (h : SyncInv B L) :
    L.anchor = B.lastClose := by
  unfold LiveState.anchor
  rw [h.getLast_eq]
  cases hB : B.bricks.getLast? with
  | none => exact h.2.1
  | some br => exact (h.2.2 br hB).symm

theorem SyncInv.lastDir_eq {B : BatchState} {L : LiveState} (h : SyncInv B L) :
    L.lastDir = (B.bricks.getLast?).map Brick.dir := by
  unfold LiveState.lastDir
  rw [h.getLast_eq]

theorem syncInv_step (b : ℚ) (hb : 0 < b) (B : BatchState) (L : LiveState) (p : ℚ)
    (h : SyncInv B L) : SyncInv (batchStep b B p) (liveStep b L p).1 := by
  obtain ⟨h1, h2, h3⟩ := h
  have hg := SyncInv.getLast_eq ⟨h1, h2, h3⟩
  have ha := SyncInv.anchor_eq ⟨h1, h2, h3⟩
  have hd := SyncInv.lastDir_eq ⟨h1, h2, h3⟩
  unfold batchStep liveStep
  rw [ha]
  cases hB : B.lastClose with
  | none =>
    refine ⟨h1, rfl, ?_⟩
    intro br hbr
    exact absurd ((h3 br hbr).symm.trans hB) (by simp)
  | some anchor =>
    by_cases hz : p - anchor = 0
    · simp only [hz, if_pos rfl]
      exact ⟨h1, h2, h3⟩
    · simp only [if_neg hz]
      have hthr :
          (if L.lastDir = some (if 0 < p - anchor then Direction.up else Direction.down) ∨
              L.lastDir = none then b else 2 * b) =
          (if (match B.bricks.getLast? with
                | some br => br.dir
                | none => (if 0 < p - anchor then Direction.up else Direction.down)) =
              (if 0 < p - anchor then Direction.up else Direction.down) then b else 2 * b) := by
        rw [hd]
        cases B.bricks.getLast? with
        | none => simp
        | some br => simp
      rw [hthr]
      set dir := (if 0 < p - anchor then Direction.up else Direction.down) with hdir
      set lastDirB := (match B.bricks.getLast? with
        | some br => br.dir
        | none => dir) with hlb
      set thr := (if lastDirB = dir then b else 2 * b) with hthr2
      by_cases hguard : (dir = Direction.up ∧ thr ≤ p - anchor) ∨
          (dir = Direction.down ∧ p - anchor ≤ -thr)
      · simp only [if_pos hguard]
        have hrem : 0 ≤ |p - anchor| - thr := by
          rcases hguard with ⟨_, hle⟩ | ⟨_, hle⟩
          · have : thr ≤ |p - anchor| := hle.trans (le_abs_self _)
            linarith
          · have : thr ≤ |p - anchor| := by
              have := neg_le_abs (p - anchor)
              linarith
            linarith
        set n := (brickCount b (|p - anchor| - thr)).toNat with hn
        have hne : n ≠ 0 := brickCount_toNat_ne_zero b _ hb hrem
        have hmap := emitBricksLive_fst_map b dir n L.lastDir anchor thr
        have hsnd := emitBricksLive_snd b dir n L.lastDir anchor thr
        refine ⟨?_, ?_, ?_⟩
        · simp only
          rw [hmap, h1, truncate200_append]
        · simp only
          rw [hsnd]
        · intro br hbr
          simp only at hbr ⊢
          obtain ⟨br2, hl2, hc2, _⟩ := emitBricks_getLast b dir n anchor thr hne
          rw [List.getLast?_append] at hbr
          rw [hl2] at hbr
          simp only [Option.or_some] at hbr
          cases hbr
          rw [hc2]
      · simp only [if_neg hguard]
        refine ⟨?_, h2, h3⟩
        rw [h1, truncate200_idem]


theorem syncInv_run (b : ℚ) (hb : 0 < b) :
    ∀ (closes : List ℚ) (B : BatchState) (L : LiveState), SyncInv B L →
      SyncInv (closes.foldl (batchStep b) B) (liveRun b L closes)
  | [], _, _, h => h
  | p :: ps, B, L, h =>
    syncInv_run b hb ps (batchStep b B p) (liveStep b L p).1 (syncInv_step b hb B L p h)

/-- C4: Bootstrap/live equivalence — for every positive brick size and every
finite sequence of close prices, rebuilding the brick list in one historical
batch through `set_renko_list_into_symbol_data_list` stores exactly the same
brick sequence (same open, close, direction, order, including the 200-brick
eviction) as feeding the prices one at a time through
`handle_new_ticker_data` from the same fresh starting state. -/
theorem bootstrap_live_equivalence (b : ℚ) (hb : 0 < b) (closes : List ℚ) :
    setRenkoList b closes = (liveRun b ⟨[], none⟩ closes).renkoList := by
  have hinv : SyncInv ⟨[], none⟩ ⟨[], none⟩ := by
    refine ⟨?_, rfl, ?_⟩
    · simp [truncate200]
    · intro br hbr
      simp at hbr
  have hrun := syncInv_run b hb closes ⟨[], none⟩ ⟨[], none⟩ hinv
  unfold setRenkoList
  rcases eq_or_ne closes [] with hc | hc
  · subst hc
    simp [liveRun]
  · rw [if_neg (by simp [hc, hb.ne.symm])]
    exact hrun.1.symm


theorem emitBricksLive_signals (b : ℚ) (dir : Direction) :
    ∀ (n : ℕ) (ld : Option Direction) (anchor fs : ℚ),
      signalsOnlyOnChange ld (emitBricksLive b dir ld anchor fs n).1
  | 0, _, _, _ => trivial
  | n + 1, ld, anchor, fs => by
    refine ⟨?_, emitBricksLive_signals b dir n (some dir) (stepClose dir anchor fs) b⟩
    intro hs
    cases ld with
    | none => simp at hs
    | some d =>
      refine ⟨d, rfl, ?_⟩
      simpa using hs

theorem liveStep_eq_of_anchor_none (b : ℚ) (st : LiveState) (p : ℚ) (hA : st.anchor = none) :
    liveStep b st p = ({ st with lastRenkoClose := some ((pyRound (p / b) : ℚ) * b) }, []) := by
  unfold liveStep
  rw [hA]

theorem anchor_mk_append (rl N : List Brick) (c : Option ℚ) (br : Brick)
    (hbr : N.getLast? = some br) :
    LiveState.anchor ⟨truncate200 (rl ++ N), c⟩ = some br.close := by
  unfold LiveState.anchor
  simp only [truncate200_getLast?, List.getLast?_append, hbr, Option.or_some]

theorem anchor_mk_trunc (rl : List Brick) (c : Option ℚ) :
    LiveState.anchor ⟨truncate200 rl, c⟩ = LiveState.anchor ⟨rl, c⟩ := by
  unfold LiveState.anchor
  rw [truncate200_getLast?]

/-- C7: Direction-change-only trade signal — for every brick size, state and
ticker price, each brick emitted by `handle_new_ticker_data` carries a true
trade-signal flag (the guard of the close-then-open order sequence) only
when a preceding brick exists and its direction differs from the new brick;
in particular the second and later bricks of a same-direction burst in one
call never signal. -/
theorem trade_signal_only_on_direction_change (b : ℚ) (st : LiveState) (p : ℚ) :
    signalsOnlyOnChange st.lastDir (liveStep b st p).2 := by
  rcases hA : st.anchor with _ | anchor
  · rw [liveStep_eq_of_anchor_none b st p hA]
    trivial
  · by_cases hz : p - anchor = 0
    · unfold liveStep
      rw [hA]
      dsimp only
      rw [if_pos hz]
      trivial
    · unfold liveStep
      rw [hA]
      dsimp only
      rw [if_neg hz]
      generalize (if 0 < p - anchor then Direction.up else Direction.down) = dir
      generalize (if st.lastDir = some dir ∨ st.lastDir = none then b else 2 * b) = thr
      by_cases hguard : (dir = Direction.up ∧ thr ≤ p - anchor) ∨
          (dir = Direction.down ∧ p - anchor ≤ -thr)
      · rw [if_pos hguard]
        exact emitBricksLive_signals b dir _ st.lastDir anchor thr
      · rw [if_neg hguard]
        trivial

theorem emitBricks_snd_align (b : ℚ) (dir : Direction) :
    ∀ (n : ℕ) (anchor fs : ℚ), (∃ k : ℤ, anchor = (k : ℚ) * b) →
      (∃ j : ℤ, fs = (j : ℚ) * b) →
      ∃ m : ℤ, (emitBricks b dir anchor fs n).2 = (m : ℚ) * b
  | 0, anchor, fs, hk, _ => by
    simpa [emitBricks] using hk
  | n + 1, anchor, fs, ⟨k, hk⟩, ⟨j, hj⟩ => by
    simp only [emitBricks]
    refine emitBricks_snd_align b dir n (stepClose dir anchor fs) b ?_ ⟨1, by simp⟩
    cases dir with
    | up => exact ⟨k + j, by push_cast [stepClose, hk, hj]; ring⟩
    | down => exact ⟨k - j, by push_cast [stepClose, hk, hj]; ring⟩

/-- C9: Anchor alignment invariant — if the effective anchor
(`last_renko_close`) is an integer multiple of the brick size, then after
processing any ticker price it still is: initialization rounds the first
price to a multiple of the brick size, and every emission moves the anchor
by the threshold (brick size or twice it) and then whole brick sizes. -/
theorem anchor_alignment_preserved (b : ℚ) (hb : 0 < b) (st : LiveState) (p : ℚ)
    (h : ∀ a, st.anchor = some a → ∃ k : ℤ, a = (k : ℚ) * b) :
    ∀ a, ((liveStep b st p).1).anchor = some a → ∃ k : ℤ, a = (k : ℚ) * b := by
  rcases hA : st.anchor with _ | anchor
  · rw [liveStep_eq_of_anchor_none b st p hA]
    intro a haa
    have hnil : st.renkoList.getLast? = none := by
      unfold LiveState.anchor at hA
      rcases hg : st.renkoList.getLast? with _ | br
      · rfl
      · rw [hg] at hA
        simp at hA
    unfold LiveState.anchor at haa
    simp only [hnil] at haa
    exact ⟨pyRound (p / b), (Option.some.inj haa).symm⟩
  · obtain ⟨k, hk⟩ := h anchor hA
    by_cases hz : p - anchor = 0
    · unfold liveStep
      rw [hA]
      dsimp only
      rw [if_pos hz]
      exact h
    · unfold liveStep
      rw [hA]
      dsimp only
      rw [if_neg hz]
      generalize (if 0 < p - anchor then Direction.up else Direction.down) = dir
      generalize hthr : (if st.lastDir = some dir ∨ st.lastDir = none then b else 2 * b) = thr
      by_cases hguard : (dir = Direction.up ∧ thr ≤ p - anchor) ∨
          (dir = Direction.down ∧ p - anchor ≤ -thr)
      · rw [if_pos hguard]
        intro a haa
        have hrem : 0 ≤ |p - anchor| - thr := by
          rcases hguard with ⟨_, hle⟩ | ⟨_, hle⟩
          · have : thr ≤ |p - anchor| := hle.trans (le_abs_self _)
            linarith
          · have : thr ≤ |p - anchor| := by
              have := neg_le_abs (p - anchor)
              linarith
            linarith
        have hne : (brickCount b (|p - anchor| - thr)).toNat ≠ 0 :=
          brickCount_toNat_ne_zero b _ hb hrem
        rw [emitBricksLive_fst_map, emitBricksLive_snd] at haa
        obtain ⟨br2, hl2, hc2, _⟩ :=
          emitBricks_getLast b dir (brickCount b (|p - anchor| - thr)).toNat anchor thr hne
        rw [anchor_mk_append st.renkoList _ _ br2 hl2] at haa
        have hthrj : ∃ j : ℤ, thr = (j : ℚ) * b := by
          rw [← hthr]
          by_cases hc : st.lastDir = some dir ∨ st.lastDir = none
          · rw [if_pos hc]
            exact ⟨1, by simp⟩
          · rw [if_neg hc]
            exact ⟨2, by push_cast; ring⟩
        obtain ⟨m, hm⟩ := emitBricks_snd_align b dir
          (brickCount b (|p - anchor| - thr)).toNat anchor thr ⟨k, hk⟩ hthrj
        refine ⟨m, ?_⟩
        rw [← Option.some.inj haa, hc2, hm]
      · rw [if_neg hguard]
        intro a haa
        rw [anchor_mk_trunc] at haa
        exact h a haa


/-- C1: Reversal doubling — in Tracking state with effective anchor 100,
brick size 10 and most recent brick direction up, processing the single
price 75 emits exactly one down brick with open 100 and close 80 (height
2 × 10, flagged as a trade signal), appends it to the stored list, and
leaves the anchor at 80; the remaining diff 5 < 10 yields no second brick. -/
theorem reversal_doubling (st : LiveState)
    (h1 : st.anchor = some 100) (h2 : st.lastDir = some Direction.up) :
    (liveStep 10 st 75).2 = [(⟨100, 80, Direction.down⟩, true)] ∧
    ((liveStep 10 st 75).1).anchor = some 80 ∧
    (liveStep 10 st 75).1.renkoList =
      truncate200 (st.renkoList ++ [⟨100, 80, Direction.down⟩]) := by
  have hstep : liveStep 10 st 75 =
      (⟨truncate200 (st.renkoList ++ [⟨100, 80, Direction.down⟩]), some 80⟩,
        [(⟨100, 80, Direction.down⟩, true)]) := by
    unfold liveStep
    rw [h1]
    dsimp only
    rw [h2]
    norm_num +decide [emitBricksLive, stepClose, brickCount]
  rw [hstep]
  exact ⟨rfl, anchor_mk_append st.renkoList [⟨100, 80, Direction.down⟩] (some 80)
    ⟨100, 80, Direction.down⟩ rfl, rfl⟩

/-- C6: Multi-brick burst — in Tracking state with effective anchor 100,
brick size 10 and same-direction continuation (last brick up, or no brick
yet), processing the single price 137 emits exactly the three up bricks
100→110, 110→120, 120→130 in that order and leaves the anchor at 130; the
remaining 7 < 10 is undistributed. -/
theorem multi_brick_burst (st : LiveState) (h1 : st.anchor = some 100)
    (h2 : st.lastDir = some Direction.up ∨ st.lastDir = none) :
    (liveStep 10 st 137).2 =
      [(⟨100, 110, Direction.up⟩, false), (⟨110, 120, Direction.up⟩, false),
        (⟨120, 130, Direction.up⟩, false)] ∧
    ((liveStep 10 st 137).1).anchor = some 130 ∧
    (liveStep 10 st 137).1.renkoList =
      truncate200 (st.renkoList ++
        [⟨100, 110, Direction.up⟩, ⟨110, 120, Direction.up⟩, ⟨120, 130, Direction.up⟩]) := by
  have hstep : liveStep 10 st 137 =
      (⟨truncate200 (st.renkoList ++
          [⟨100, 110, Direction.up⟩, ⟨110, 120, Direction.up⟩, ⟨120, 130, Direction.up⟩]),
        some 130⟩,
        [(⟨100, 110, Direction.up⟩, false), (⟨110, 120, Direction.up⟩, false),
          (⟨120, 130, Direction.up⟩, false)]) := by
    unfold liveStep
    rw [h1]
    dsimp only
    rcases h2 with h2 | h2 <;>
      rw [h2] <;>
      norm_num +decide [emitBricksLive, stepClose, brickCount]
  rw [hstep]
  refine ⟨rfl, ?_, rfl⟩
  exact anchor_mk_append st.renkoList _ (some 130) ⟨120, 130, Direction.up⟩ rfl

theorem trueRange_nonneg (hi lo pc : ℚ) : 0 ≤ trueRange hi lo pc :=
  le_trans (abs_nonneg (hi - pc)) (le_max_of_le_right (le_max_left _ _))

theorem trList_mem_nonneg : ∀ (bars : List Ohlcv) (x : ℚ), x ∈ trList bars → 0 ≤ x
  | [], _, hx => absurd hx (by simp [trList])
  | [_], _, hx => absurd hx (by simp [trList])
  | a :: b2 :: rest, x, hx => by
    rw [trList] at hx
    rcases List.mem_cons.mp hx with h | h
    · exact h ▸ trueRange_nonneg b2.h b2.l a.c
    · exact trList_mem_nonneg (b2 :: rest) x h

theorem trList_length : ∀ bars : List Ohlcv, (trList bars).length = bars.length - 1
  | [] => rfl
  | [_] => rfl
  | a :: b2 :: rest => by
    have := trList_length (b2 :: rest)
    simp only [trList, List.length_cons] at this ⊢
    omega

theorem wilderSmooth_nonneg (p : ℕ) (hp : 1 ≤ p) :
    ∀ (trs : List ℚ) (init : ℚ), 0 ≤ init → (∀ t ∈ trs, 0 ≤ t) →
      0 ≤ wilderSmooth p init trs
  | [], init, hi, _ => hi
  | tr :: trs, init, hi, ht => by
    have hp0 : (0 : ℚ) < (p : ℚ) := by
      exact_mod_cast Nat.lt_of_lt_of_le Nat.zero_lt_one hp
    have hp1 : (0 : ℚ) ≤ (p : ℚ) - 1 := by
      have : (1 : ℚ) ≤ (p : ℚ) := by exact_mod_cast hp
      linarith
    have hinit2 : 0 ≤ (init * ((p : ℚ) - 1) + tr) / (p : ℚ) :=
      div_nonneg (add_nonneg (mul_nonneg hi hp1) (ht tr (by simp))) hp0.le
    have := wilderSmooth_nonneg p hp trs ((init * ((p : ℚ) - 1) + tr) / (p : ℚ))
      hinit2 (fun t htm => ht t (by simp [htm]))
    simpa [wilderSmooth] using this

theorem atrLast_nonneg (p : ℕ) (hp : 1 ≤ p) (bars : List Ohlcv) : 0 ≤ atrLast p bars := by
  unfold atrLast
  refine wilderSmooth_nonneg p hp _ _ ?_ ?_
  · refine div_nonneg (List.sum_nonneg ?_) (by positivity)
    intro x hx
    exact trList_mem_nonneg bars x (List.mem_of_mem_take hx)
  · intro t htm
    exact trList_mem_nonneg bars t (List.mem_of_mem_drop htm)

theorem sum_pos_iff_of_nonneg :
    ∀ (l : List ℚ), (∀ x ∈ l, 0 ≤ x) → (0 < l.sum ↔ ∃ x ∈ l, 0 < x)
  | [], _ => by simp
  | x :: xs, h => by
    simp only [List.sum_cons, List.mem_cons]
    constructor
    · intro hpos
      by_cases hx : 0 < x
      · exact ⟨x, Or.inl rfl, hx⟩
      · have hx0 : x = 0 := le_antisymm (not_lt.mp hx) (h x (List.mem_cons_self x xs))
        have hs : 0 < xs.sum := by
          rw [hx0] at hpos
          simpa using hpos
        obtain ⟨y, hy, hy0⟩ :=
          (sum_pos_iff_of_nonneg xs (fun z hz => h z (List.mem_cons_of_mem x hz))).mp hs
        exact ⟨y, Or.inr hy, hy0⟩
    · rintro ⟨y, hy | hy, hy0⟩
      · have hs : 0 ≤ xs.sum := List.sum_nonneg (fun z hz => h z (List.mem_cons_of_mem x hz))
        subst hy
        linarith
      · have hyx : y ≤ xs.sum := List.single_le_sum (fun z hz => h z (List.mem_cons_of_mem x hz)) y hy
        have hx : 0 ≤ x := h x (List.mem_cons_self x xs)
        linarith

/-- C5 (amended): the computed brick size is either absent or a nonnegative
value. The original claim that it is never zero, with zero treated as
unavailable, fails: a flat window makes the ATR exactly zero and
`set_brick_size_into_symbol_data_list` stores 0.0 rather than None (see the
counterexample), and the live path only skips a size that is None. -/
theorem brick_size_nonneg (p : ℕ) (bars : List Ohlcv) (hp : 1 ≤ p) :
    setBrickSizeForSymbol p bars = none ∨
      ∃ v : ℚ, setBrickSizeForSymbol p bars = some v ∧ 0 ≤ v := by
  unfold setBrickSizeForSymbol
  split
  · exact Or.inl rfl
  · exact Or.inr ⟨_, rfl, atrLast_nonneg p hp bars⟩

/-- C8 (amended): with `atr_period` 14, a window of 14 or fewer bars yields
no brick size, and a window of exactly 15 bars yields a defined brick size,
the mean of the 14 true ranges, which is nonnegative, and positive exactly
when at least one true range is positive. The original unconditional
positivity fails on a flat window (see the counterexample). -/
theorem volatility_availability_boundary (bars : List Ohlcv) :
    (bars.length ≤ 14 → setBrickSizeForSymbol 14 bars = none) ∧
    (bars.length = 15 →
      setBrickSizeForSymbol 14 bars = some ((trList bars).sum / 14) ∧
      0 ≤ (trList bars).sum / 14 ∧
      (0 < (trList bars).sum / 14 ↔ ∃ tr ∈ trList bars, 0 < tr)) := by
  constructor
  · intro hlen
    unfold setBrickSizeForSymbol
    rw [if_pos (by omega)]
  · intro hlen
    have hlen14 : (trList bars).length = 14 := by
      rw [trList_length, hlen]
    have hnn : ∀ x ∈ trList bars, 0 ≤ x := trList_mem_nonneg bars
    have hval : atrLast 14 bars = (trList bars).sum / 14 := by
      unfold atrLast wilderSmooth
      rw [List.take_of_length_le (by omega), List.drop_eq_nil_of_le (by omega)]
      rfl
    refine ⟨?_, ?_, ?_⟩
    · unfold setBrickSizeForSymbol
      rw [if_neg (by omega), hval]
    · exact div_nonneg (List.sum_nonneg hnn) (by norm_num)
    · rw [div_pos_iff_of_pos_right (by norm_num : (0:ℚ) < 14)]
      exact sum_pos_iff_of_nonneg (trList bars) hnn


theorem upsertSymbolData_mem_symbol :
    ∀ (lst : List SymbolPosition) (fresh : SymbolPosition) (s : String),
      s ∈ (upsertSymbolData lst fresh).map SymbolPosition.symbol →
      s ∈ lst.map SymbolPosition.symbol ∨ s = fresh.symbol
  | [], fresh, s, hmem => by
    simp [upsertSymbolData] at hmem
    exact Or.inr hmem
  | item :: rest, fresh, s, hmem => by
    by_cases he : item.symbol = fresh.symbol
    · simp only [upsertSymbolData, if_pos he, List.map_cons, List.mem_cons] at hmem
      simp only [List.map_cons, List.mem_cons]
      rcases hmem with hmem | hmem
      · exact Or.inr (hmem.trans (show (updateMarketData item fresh).symbol = fresh.symbol
          from rfl) : s = fresh.symbol)
      · exact Or.inl (Or.inr hmem)
    · simp only [upsertSymbolData, if_neg he, List.map_cons, List.mem_cons] at hmem
      simp only [List.map_cons, List.mem_cons]
      rcases hmem with hmem | hmem
      · exact Or.inl (Or.inl hmem)
      · rcases upsertSymbolData_mem_symbol rest fresh s hmem with h2 | h2
        · exact Or.inl (Or.inr h2)
        · exact Or.inr h2

theorem upsertSymbolData_nodup :
    ∀ (lst : List SymbolPosition) (fresh : SymbolPosition),
      (lst.map SymbolPosition.symbol).Nodup →
      ((upsertSymbolData lst fresh).map SymbolPosition.symbol).Nodup
  | [], fresh, _ => by simp [upsertSymbolData]
  | item :: rest, fresh, h => by
    simp only [List.map_cons, List.nodup_cons] at h
    by_cases he : item.symbol = fresh.symbol
    · simp only [upsertSymbolData, if_pos he, List.map_cons, List.nodup_cons]
      refine ⟨?_, h.2⟩
      have hsym : (updateMarketData item fresh).symbol = fresh.symbol := rfl
      rw [hsym, ← he]
      exact h.1
    · simp only [upsertSymbolData, if_neg he, List.map_cons, List.nodup_cons]
      refine ⟨?_, upsertSymbolData_nodup rest fresh h.2⟩
      intro hmem
      rcases upsertSymbolData_mem_symbol rest fresh item.symbol hmem with h2 | h2
      · exact h.1 h2
      · exact he h2

/-- C2: At-most-one-position invariant — `place_market_open_order_after_close`
is a no-op when the held side equals the requested side; when a nonzero
position is held it issues the close order strictly before the open order;
after a non-no-op call the single per-symbol record holds exactly the
requested side; and the upsert of `set_symbol_data_to_position_list` keeps
at most one record per symbol. -/
theorem at_most_one_position (st : SimState) (side : Side)
    (lst : List SymbolPosition) (fresh : SymbolPosition) :
    (st.pos.side = some side → simPlaceMarketOpenOrderAfterClose st side = (st, [])) ∧
    (st.pos.side ≠ some side → st.pos.sizeQty ≠ 0 →
      (simPlaceMarketOpenOrderAfterClose st side).2 =
        [OrderEvent.closeOrder, OrderEvent.openOrder side]) ∧
    (st.pos.side ≠ some side →
      ((simPlaceMarketOpenOrderAfterClose st side).1).pos.side = some side) ∧
    ((lst.map SymbolPosition.symbol).Nodup →
      ((upsertSymbolData lst fresh).map SymbolPosition.symbol).Nodup) := by
  refine ⟨?_, ?_, ?_, upsertSymbolData_nodup lst fresh⟩
  · intro hside
    unfold simPlaceMarketOpenOrderAfterClose
    rw [if_pos hside]
  · intro hside hsz
    simp [simPlaceMarketOpenOrderAfterClose, simPlaceMarketCloseOrder, hside, hsz]
  · intro hside
    by_cases hsz : st.pos.sizeQty = 0 <;>
      simp [simPlaceMarketOpenOrderAfterClose, simPlaceMarketCloseOrder, hside, hsz]

/-- C3: Close-failure atomicity — in the live
`place_market_open_order_after_close`, when the close order raises, the
paired open order is never issued, the position record is left unchanged
(the prior side is retained), and the failure is surfaced to the caller. -/
theorem close_failure_atomicity (p : SymbolPosition) (side : Side) (e : String)
    (openRes : Except String Unit) (h1 : p.side ≠ some side) (h2 : p.sizeQty ≠ 0) :
    placeMarketOpenOrderAfterCloseLive p side (.error e) openRes =
      (p, [OrderEvent.closeOrder], some e) := by
  simp [placeMarketOpenOrderAfterCloseLive, placeMarketCloseOrderLive, h1, h2]

/-- C10: `set_ohlcv_list_into_symbol_data_list` raises ValueError on a missing
or empty candlestick list, before mutating `symbol_data_list`; on any
non-empty list it appends exactly one new entry for the symbol,
unconditionally, even when an entry for that symbol already exists. -/
theorem ohlcv_input_validation (symbol : String)
    (candles : Option (List Candlestick)) (sdl : List SymbolData) :
    ((candles = none ∨ candles = some []) →
      setOhlcvListIntoSymbolDataList symbol candles sdl = .error emptyOhlcvMsg) ∧
    (∀ cl, candles = some cl → cl ≠ [] →
      setOhlcvListIntoSymbolDataList symbol candles sdl =
        .ok (sdl ++ [⟨symbol, cl.map parseCandlestick⟩]) ∧
      (sdl ++ [(⟨symbol, cl.map parseCandlestick⟩ : SymbolData)]).length = sdl.length + 1) := by
  constructor
  · rintro (rfl | rfl) <;> rfl
  · rintro cl rfl hne
    obtain ⟨c, cs, rfl⟩ := List.exists_cons_of_ne_nil hne
    exact ⟨rfl, by simp⟩

/-- C5 counterexample: a window of 15 identical flat bars has every true
range equal to zero, so the ATR is exactly zero and the brick size is
stored as 0 (not as None); it is neither absent nor strictly positive,
refuting the claim that a zero value is treated as unavailable. -/
theorem brick_size_zero_counterexample :
    setBrickSizeForSymbol 14 flatBars = some 0 := by
  norm_num +decide [setBrickSizeForSymbol, atrLast, trList, trueRange, wilderSmooth, flatBars,
    List.replicate]

/-- C8 counterexample: a window of exactly 15 flat bars yields a defined
brick size of 0, which is not positive, refuting the claim that 15 bars
always yield a positive brick size. -/
theorem volatility_boundary_counterexample :
    flatBars.length = 15 ∧ setBrickSizeForSymbol 14 flatBars = some 0 ∧ ¬ (0 : ℚ) < 0 := by
  refine ⟨by simp [flatBars], ?_, by norm_num⟩
  norm_num +decide [setBrickSizeForSymbol, atrLast, trList, trueRange, wilderSmooth, flatBars,
    List.replicate]

/-- Witness for C1 at the state holding one up brick 90→100. -/
theorem reversal_doubling_witness :
    (⟨[⟨90, 100, Direction.up⟩], none⟩ : LiveState).anchor = some 100 ∧
    (⟨[⟨90, 100, Direction.up⟩], none⟩ : LiveState).lastDir = some Direction.up ∧
    (liveStep 10 ⟨[⟨90, 100, Direction.up⟩], none⟩ 75).2 = [(⟨100, 80, Direction.down⟩, true)] :=
  ⟨rfl, rfl, (reversal_doubling ⟨[⟨90, 100, Direction.up⟩], none⟩ rfl rfl).1⟩

/-- Witness for C6 at the freshly anchored state with no prior brick. -/
theorem multi_brick_burst_witness :
    (⟨[], some 100⟩ : LiveState).anchor = some 100 ∧
    (liveStep 10 ⟨[], some 100⟩ 137).2 =
      [(⟨100, 110, Direction.up⟩, false), (⟨110, 120, Direction.up⟩, false),
        (⟨120, 130, Direction.up⟩, false)] :=
  ⟨rfl, (multi_brick_burst ⟨[], some 100⟩ rfl (Or.inr rfl)).1⟩

/-- Witness for C4 at brick size 10 and a three-price history. -/
theorem bootstrap_live_equivalence_witness :
    (0 : ℚ) < 10 ∧
    setRenkoList 10 [100, 137, 75] = (liveRun 10 ⟨[], none⟩ [100, 137, 75]).renkoList :=
  ⟨by norm_num, bootstrap_live_equivalence 10 (by norm_num) [100, 137, 75]⟩

/-- Witness for C9 at brick size 10 and the anchored state 100 = 10 × 10. -/
theorem anchor_alignment_preserved_witness :
    (0 : ℚ) < 10 ∧
    (∀ a, ((liveStep 10 ⟨[], some 100⟩ 137).1).anchor = some a → ∃ k : ℤ, a = (k : ℚ) * 10) :=
  ⟨by norm_num,
    anchor_alignment_preserved 10 (by norm_num) ⟨[], some 100⟩ 137 (fun a ha =>
      ⟨10, by rw [← Option.some.inj ha]; norm_num⟩)⟩

/-- Witness for C5 (amended) at period 14 and the flat window. -/
theorem brick_size_nonneg_witness :
    1 ≤ 14 ∧
    (setBrickSizeForSymbol 14 flatBars = none ∨
      ∃ v : ℚ, setBrickSizeForSymbol 14 flatBars = some v ∧ 0 ≤ v) :=
  ⟨by norm_num, brick_size_nonneg 14 flatBars (by norm_num)⟩

/-- Witness for C8 (amended): 14 flat bars map to no brick size, and the
15-bar flat window maps to the mean of its true ranges. -/
theorem volatility_availability_boundary_witness :
    ((List.replicate 14 (⟨100, 100, 100, 100, 0, 0⟩ : Ohlcv)).length ≤ 14 ∧
      setBrickSizeForSymbol 14 (List.replicate 14 ⟨100, 100, 100, 100, 0, 0⟩) = none) ∧
    (flatBars.length = 15 ∧
      setBrickSizeForSymbol 14 flatBars = some ((trList flatBars).sum / 14)) :=
  ⟨⟨by simp, (volatility_availability_boundary (List.replicate 14 ⟨100, 100, 100, 100, 0, 0⟩)).1
      (by simp)⟩,
    ⟨by simp [flatBars],
      ((volatility_availability_boundary flatBars).2 (by simp [flatBars])).1⟩⟩

/-- Witness for C2: a held long of size 30 receiving a sell request issues
close then open. -/
theorem at_most_one_position_witness :
    ((⟨⟨"BTC_USDT", 100, 1, 1, 50, 500, some Side.buy, 30, 300, 2⟩, 10000⟩ : SimState).pos.side
        ≠ some Side.sell ∧
      (⟨⟨"BTC_USDT", 100, 1, 1, 50, 500, some Side.buy, 30, 300, 2⟩,
          10000⟩ : SimState).pos.sizeQty ≠ 0) ∧
    (simPlaceMarketOpenOrderAfterClose
        ⟨⟨"BTC_USDT", 100, 1, 1, 50, 500, some Side.buy, 30, 300, 2⟩, 10000⟩ Side.sell).2 =
      [OrderEvent.closeOrder, OrderEvent.openOrder Side.sell] :=
  ⟨⟨by decide, by decide⟩,
    (at_most_one_position ⟨⟨"BTC_USDT", 100, 1, 1, 50, 500, some Side.buy, 30, 300, 2⟩, 10000⟩
      Side.sell [] ⟨"BTC_USDT", 100, 1, 1, 50, 500, none, 0, 0, 0⟩).2.1 (by decide) (by decide)⟩

/-- Witness for C3: a held long of size 30, a sell request, and a rejected
close order leave the record unchanged with no open order issued. -/
theorem close_failure_atomicity_witness :
    ((⟨"BTC_USDT", 100, 1, 1, 50, 500, some Side.buy, 30, 300, 2⟩ : SymbolPosition).side
        ≠ some Side.sell ∧
      (⟨"BTC_USDT", 100, 1, 1, 50, 500, some Side.buy, 30, 300, 2⟩ : SymbolPosition).sizeQty
        ≠ 0) ∧
    placeMarketOpenOrderAfterCloseLive
        ⟨"BTC_USDT", 100, 1, 1, 50, 500, some Side.buy, 30, 300, 2⟩ Side.sell
        (.error "close rejected") (.ok ()) =
      (⟨"BTC_USDT", 100, 1, 1, 50, 500, some Side.buy, 30, 300, 2⟩,
        [OrderEvent.closeOrder], some "close rejected") :=
  ⟨⟨by decide, by decide⟩,
    close_failure_atomicity ⟨"BTC_USDT", 100, 1, 1, 50, 500, some Side.buy, 30, 300, 2⟩
      Side.sell "close rejected" (.ok ()) (by decide) (by decide)⟩

/-- Witness for C10: a missing list errors, and a one-bar list appends one
entry even though an entry for the symbol already exists. -/
theorem ohlcv_input_validation_witness :
    setOhlcvListIntoSymbolDataList "BTC_USDT" none [] = .error emptyOhlcvMsg ∧
    ([(⟨1, 2, 0, 1, 5, 0⟩ : Candlestick)] ≠ [] ∧
      setOhlcvListIntoSymbolDataList "BTC_USDT" (some [⟨1, 2, 0, 1, 5, 0⟩]) [⟨"BTC_USDT", []⟩] =
        .ok ([⟨"BTC_USDT", []⟩] ++ [⟨"BTC_USDT", [⟨1, 2, 0, 1, 5, 0⟩].map parseCandlestick⟩])) :=
  ⟨(ohlcv_input_validation "BTC_USDT" none []).1 (Or.inl rfl),
    ⟨by simp,
      ((ohlcv_input_validation "BTC_USDT" (some [⟨1, 2, 0, 1, 5, 0⟩]) [⟨"BTC_USDT", []⟩]).2
        [⟨1, 2, 0, 1, 5, 0⟩] rfl (by simp)).1⟩⟩

end RenkoSpec
